import Mathlib

/-!
Verification development for the chess-vision-overlay repository.

Shallow embedding conventions:
- JavaScript strings are modelled as `List Char`; `string[i]` is `List.getElem?`
  (out-of-range access yields `none`, mirroring `undefined`).
- JavaScript numbers are modelled as `ℚ` (all arithmetic appearing in the
  modelled code paths is exact on small rationals); `Math.floor` is `Int.floor`
  and `Math.round` is `⌊x + 1/2⌋` (JS rounds half-way cases toward +∞).
- Mutable arrays written by loops are modelled with `List.set` folds mirroring
  the loop structure, or with functions on indices where every slot is written.
-/

namespace ChessVision

/-! ### src/vision/fen-utils.ts -/

/-- The twelve FEN piece characters, as in the regex `/[prnbqkPRNBQK]/`. -/
def pieceChars : List Char := ['p', 'r', 'n', 'b', 'q', 'k', 'P', 'R', 'N', 'B', 'Q', 'K']

/-- Test for a piece character (`/[prnbqkPRNBQK]/.test(token)`). -/
def isPieceChar (c : Char) : Bool := pieceChars.contains c

/-- Test for a single digit 1-8 (`/^[1-8]$/.test(token)`). -/
def isDigit18 (c : Char) : Bool := (['1', '2', '3', '4', '5', '6', '7', '8'] : List Char).contains c

/-- `Number(token)` on a single decimal digit character. -/
def digitVal (c : Char) : Nat := c.toNat - 48

/-- The character printed by `String(empty)` for `1 ≤ empty ≤ 8`. -/
def digitChar (n : Nat) : Char := Char.ofNat (48 + n)

/-- One rank of `piecesToFen`: the inner `file` loop with its `empty` run-length
counter. `encodeRank cs e` encodes the remaining squares `cs` given `e`
accumulated empties. -/
def encodeRank : List Char → Nat → List Char
  | [], e => if 0 < e then [digitChar e] else []
  | c :: cs, e =>
    if c = '1' then encodeRank cs (e + 1)
    else (if 0 < e then [digitChar e] else []) ++ c :: encodeRank cs 0

/-- The square list read by rank `rank` of `piecesToFen`:
`pieces[rank * 8 + file] ?? '1'` for `file = 0..7`. -/
def rankOfPieces (pieces : List Char) (rank : Nat) : List Char :=
  (List.range 8).map fun file => pieces.getD (rank * 8 + file) '1'

/-- The fixed suffix `" w - - 0 1"` of the emitted FEN. -/
def fenSuffix : List Char := [' ', 'w', ' ', '-', ' ', '-', ' ', '0', ' ', '1']

/-- `piecesToFen` from fen-utils.ts: run-length encode each of the 8 ranks,
join with `'/'`, and append `" w - - 0 1"`. -/
def piecesToFen (pieces : List Char) : List Char :=
  List.intercalate ['/'] ((List.range 8).map fun rank => encodeRank (rankOfPieces pieces rank) 0)
    ++ fenSuffix

/-- JavaScript whitespace as matched by `trim` and `/\s+/` (ASCII part). -/
def isJsSpace (c : Char) : Bool :=
  c == ' ' || c == '\t' || c == '\n' || c == '\r' || c == '\x0b' || c == '\x0c'

/-- `String.prototype.trim`. -/
def trimChars (s : List Char) : List Char :=
  ((s.dropWhile isJsSpace).reverse.dropWhile isJsSpace).reverse

/-- The first element of `fen.trim().split(/\s+/)`: the leading run of
non-whitespace characters of the trimmed string. -/
def fenBoardPart (fen : List Char) : List Char :=
  (trimChars fen).takeWhile fun c => !(isJsSpace c)

/-- The rank strings `fenBoardPart.split('/')` used by `fenToPieces`. -/
def fenRanks (fen : List Char) : List (List Char) :=
  (fenBoardPart fen).splitOn '/'

/-- One step of the token loop of `fenToPieces`, acting on the flat 64-square
array and the `file` counter: a digit 1-8 advances `file`; a piece character
with `file ≤ 7` is written at `rank * 8 + file`; anything else is skipped. -/
def applyFenToken (rank : Nat) (st : List Char × Nat) (c : Char) : List Char × Nat :=
  if isDigit18 c then (st.1, st.2 + digitVal c)
  else if isPieceChar c ∧ st.2 ≤ 7 then ((st.1).set (rank * 8 + st.2) c, st.2 + 1)
  else st

/-- `fenToPieces` from fen-utils.ts: start from 64 `'1'` markers; if the board
part does not split into exactly 8 ranks return that array unchanged, else run
the token loop of each rank over the flat array. -/
def fenToPieces (fen : List Char) : List Char :=
  let ranks := fenRanks fen
  if ranks.length ≠ 8 then List.replicate 64 '1'
  else (List.range 8).foldl
    (fun pieces rank => (((ranks.getD rank []).foldl (applyFenToken rank) (pieces, 0))).1)
    (List.replicate 64 '1')

/-- `rotatePieces180` from fen-utils.ts. The loop writes
`out[dst] = pieces[src] ?? '1'` with `dst = (7-rank)*8 + (7-file) = 63 - src`,
covering every destination index exactly once, so the output at index `dst` is
`pieces[63 - dst] ?? '1'`. -/
def rotatePieces180 (pieces : List Char) : List Char :=
  (List.range 64).map fun dst => pieces.getD (63 - dst) '1'

/-! ### Generic list helpers -/

theorem getD_map_range (f : Nat → α) (n i : Nat) (d : α) :
    ((List.range n).map f).getD i d = if i < n then f i else d := by
  rcases Nat.lt_or_ge i n with h | h
  · rw [if_pos h, List.getD_eq_getElem?_getD, List.getElem?_map, List.getElem?_range h]
    rfl
  · rw [if_neg (Nat.not_lt.mpr h), List.getD_eq_getElem?_getD, List.getElem?_map,
      List.getElem?_eq_none (by simpa using h)]
    rfl

theorem map_getD_range (l : List α) (n : Nat) (d : α) (h : l.length = n) :
    (List.range n).map (fun i => l.getD i d) = l := by
  apply List.ext_getElem
  · simp [h]
  · intro i h1 h2
    simp only [List.getElem_map, List.getElem_range]
    rw [List.getD_eq_getElem?_getD, List.getElem?_eq_getElem h2]
    rfl

/-! ### C9: rotatePieces180 is an involution on 64-element arrays -/

/-- C9: applying `rotatePieces180` twice is the identity on any 64-element
label array. -/
theorem rotatePieces180_involutive (p : List Char) (hp : p.length = 64) :
    rotatePieces180 (rotatePieces180 p) = p := by
  unfold rotatePieces180
  rw [List.map_congr_left (fun dst hdst => ?_), map_getD_range p 64 '1' hp]
  have hlt : dst < 64 := List.mem_range.mp hdst
  rw [getD_map_range, if_pos (by omega)]
  congr 1
  omega

/-- Witness for C9 at the concrete all-empty 64-square array. -/
theorem rotatePieces180_involutive_witness :
    rotatePieces180 (rotatePieces180 (List.replicate 64 '1')) = List.replicate 64 '1' :=
  rotatePieces180_involutive (List.replicate 64 '1') (List.length_replicate 64 '1')

/-! ### C10: fenToPieces is total, 64 entries, valid labels -/

theorem applyFenToken_length {rank : Nat} {st : List Char × Nat} {c : Char}
    (h : st.1.length = 64) : (applyFenToken rank st c).1.length = 64 := by
  unfold applyFenToken
  split
  · exact h
  · split
    · simpa using h
    · exact h

theorem applyFenToken_mem {rank : Nat} {st : List Char × Nat} {c : Char}
    (h : ∀ x ∈ st.1, x = '1' ∨ isPieceChar x)
    (x : Char) (hx : x ∈ (applyFenToken rank st c).1) : x = '1' ∨ isPieceChar x := by
  unfold applyFenToken at hx
  split at hx
  · exact h x hx
  · rename_i hcond
    split at hx
    · rename_i hpc
      rcases List.mem_or_eq_of_mem_set hx with h1 | h1
      · exact h x h1
      · exact Or.inr (h1 ▸ hpc.1)
    · exact h x hx

theorem fenInnerFold_inv (rank : Nat) (t : List Char) :
    ∀ (st : List Char × Nat), st.1.length = 64 → (∀ c ∈ st.1, c = '1' ∨ isPieceChar c) →
      (t.foldl (applyFenToken rank) st).1.length = 64 ∧
        ∀ c ∈ (t.foldl (applyFenToken rank) st).1, c = '1' ∨ isPieceChar c := by
  induction t with
  | nil => intro st h1 h2; exact ⟨h1, h2⟩
  | cons c cs ih =>
    intro st h1 h2
    exact ih _ (applyFenToken_length h1) (applyFenToken_mem h2)

theorem fenOuterFold_inv (ranks : List (List Char)) (l : List Nat) :
    ∀ (pieces : List Char), pieces.length = 64 → (∀ c ∈ pieces, c = '1' ∨ isPieceChar c) →
      (l.foldl (fun ps rank => (((ranks.getD rank []).foldl (applyFenToken rank) (ps, 0))).1)
          pieces).length = 64 ∧
        ∀ c ∈ l.foldl (fun ps rank => (((ranks.getD rank []).foldl (applyFenToken rank) (ps, 0))).1)
          pieces, c = '1' ∨ isPieceChar c := by
  induction l with
  | nil => intro pieces h1 h2; exact ⟨h1, h2⟩
  | cons r rs ih =>
    intro pieces h1 h2
    have h := fenInnerFold_inv r (ranks.getD r []) (pieces, 0) h1 h2
    exact ih _ h.1 h.2

/-- C10 (implicit safety claim): on every input string, `fenToPieces` yields
exactly 64 entries, each either the empty marker `'1'` or one of the 12 piece
characters; when the board part does not split into exactly 8 ranks the result
is the all-empty array. (Totality — "never throws" — is witnessed by the
function being a total Lean definition over arbitrary input.) -/
theorem fenToPieces_total_safe (fen : List Char) :
    (fenToPieces fen).length = 64 ∧
      (∀ c ∈ fenToPieces fen, c = '1' ∨ isPieceChar c) ∧
      ((fenRanks fen).length ≠ 8 → fenToPieces fen = List.replicate 64 '1') := by
  unfold fenToPieces
  by_cases h : (fenRanks fen).length ≠ 8
  · rw [if_pos h]
    refine ⟨by simp, ?_, fun _ => rfl⟩
    intro c hc
    exact Or.inl (List.eq_of_mem_replicate hc)
  · rw [if_neg h]
    have hbase : ∀ c ∈ List.replicate 64 '1', c = '1' ∨ isPieceChar c :=
      fun c hc => Or.inl (List.eq_of_mem_replicate hc)
    have := fenOuterFold_inv (fenRanks fen) (List.range 8) (List.replicate 64 '1')
      (by simp) hbase
    exact ⟨this.1, this.2, fun hk => absurd hk h⟩

/-- Witness for C10 at the malformed input `"abc"` (one rank only). -/
theorem fenToPieces_total_safe_witness :
    fenToPieces ['a', 'b', 'c'] = List.replicate 64 '1' :=
  (fenToPieces_total_safe ['a', 'b', 'c']).2.2 (by decide)

/-! ### C8: round-trip of fenToPieces / piecesToFen on well-formed boards -/

/-- Number of squares described by a rank token string (digits count as their
value, piece characters as one square). -/
def rankWidth (t : List Char) : Nat :=
  (t.map fun c => if isDigit18 c then digitVal c else 1).sum

/-- Canonical expansion of a rank token string into squares. -/
def expandRank (t : List Char) : List Char :=
  t.flatMap fun c => if isDigit18 c then List.replicate (digitVal c) '1' else [c]

/-- Standard FEN validity: no two adjacent empty-run digits in a rank. -/
def noAdjacentDigits : List Char → Bool
  | [] => true
  | [_] => true
  | a :: b :: rest => (!(isDigit18 a && isDigit18 b)) && noAdjacentDigits (b :: rest)

/-- A well-formed FEN rank: every token is a piece character or a digit 1-8,
the tokens describe exactly 8 squares, and no two digits are adjacent. -/
def WellFormedRank (t : List Char) : Prop :=
  (∀ c ∈ t, isPieceChar c = true ∨ isDigit18 c = true) ∧ rankWidth t = 8 ∧
    noAdjacentDigits t = true

/-- A well-formed 8-rank FEN board part: exactly 8 '/'-separated ranks, each
well formed. -/
def WellFormedBoard (b : List Char) : Prop :=
  (b.splitOn '/').length = 8 ∧ ∀ r ∈ b.splitOn '/', WellFormedRank r

theorem isPieceChar_cases {c : Char} (h : isPieceChar c = true) :
    c = 'p' ∨ c = 'r' ∨ c = 'n' ∨ c = 'b' ∨ c = 'q' ∨ c = 'k' ∨
      c = 'P' ∨ c = 'R' ∨ c = 'N' ∨ c = 'B' ∨ c = 'Q' ∨ c = 'K' := by
  simpa [isPieceChar, pieceChars, List.contains] using h

theorem isDigit18_cases {c : Char} (h : isDigit18 c = true) :
    c = '1' ∨ c = '2' ∨ c = '3' ∨ c = '4' ∨ c = '5' ∨ c = '6' ∨ c = '7' ∨ c = '8' := by
  simpa [isDigit18, List.contains] using h

theorem piece_not_digit {c : Char} (h : isPieceChar c = true) : isDigit18 c = false := by
  rcases isPieceChar_cases h with rfl|rfl|rfl|rfl|rfl|rfl|rfl|rfl|rfl|rfl|rfl|rfl <;> decide

theorem piece_ne_one {c : Char} (h : isPieceChar c = true) : c ≠ '1' := by
  rcases isPieceChar_cases h with rfl|rfl|rfl|rfl|rfl|rfl|rfl|rfl|rfl|rfl|rfl|rfl <;> decide

theorem digitVal_pos {c : Char} (h : isDigit18 c = true) : 0 < digitVal c := by
  rcases isDigit18_cases h with rfl|rfl|rfl|rfl|rfl|rfl|rfl|rfl <;> decide

theorem digitChar_digitVal {c : Char} (h : isDigit18 c = true) : digitChar (digitVal c) = c := by
  rcases isDigit18_cases h with rfl|rfl|rfl|rfl|rfl|rfl|rfl|rfl <;> decide

theorem token_not_space {c : Char} (h : isPieceChar c = true ∨ isDigit18 c = true) :
    isJsSpace c = false := by
  rcases h with h | h
  · rcases isPieceChar_cases h with rfl|rfl|rfl|rfl|rfl|rfl|rfl|rfl|rfl|rfl|rfl|rfl <;> decide
  · rcases isDigit18_cases h with rfl|rfl|rfl|rfl|rfl|rfl|rfl|rfl <;> decide

theorem noAdjacentDigits_tail {c : Char} {cs : List Char}
    (h : noAdjacentDigits (c :: cs) = true) : noAdjacentDigits cs = true := by
  cases cs with
  | nil => rfl
  | cons b rest =>
    have h1 : (isDigit18 c = false ∨ isDigit18 b = false) ∧
        noAdjacentDigits (b :: rest) = true := by
      simpa [noAdjacentDigits] using h
    exact h1.2

theorem noAdjacentDigits_head {c c₂ : Char} {cs : List Char}
    (h : noAdjacentDigits (c :: c₂ :: cs) = true) (hc : isDigit18 c = true) :
    isDigit18 c₂ = false := by
  have h1 : (isDigit18 c = false ∨ isDigit18 c₂ = false) ∧
      noAdjacentDigits (c₂ :: cs) = true := by
    simpa [noAdjacentDigits] using h
  rcases h1.1 with h1 | h1
  · rw [hc] at h1; exact absurd h1 (by decide)
  · exact h1

theorem encodeRank_replicate_one (k : Nat) (rest : List Char) (e : Nat) :
    encodeRank (List.replicate k '1' ++ rest) e = encodeRank rest (e + k) := by
  induction k generalizing e with
  | zero => rfl
  | succ n ih =>
    rw [List.replicate_succ, List.cons_append]
    show encodeRank (List.replicate n '1' ++ rest) (e + 1) = _
    rw [ih (e + 1)]
    congr 1
    omega

theorem encode_expand_aux (t : List Char) :
    ∀ e : Nat, (∀ c ∈ t, isPieceChar c = true ∨ isDigit18 c = true) →
      noAdjacentDigits t = true →
      (0 < e → ∀ c₀, t.head? = some c₀ → isDigit18 c₀ = false) →
      encodeRank (expandRank t) e = (if 0 < e then [digitChar e] else []) ++ t := by
  induction t with
  | nil =>
    intro e _ _ _
    show (if 0 < e then [digitChar e] else []) = _
    simp
  | cons c cs ih =>
    intro e htok hadj hhead
    rcases hd : isDigit18 c with hfalse | htrue
    · -- c is a piece character
      have hpc : isPieceChar c = true := by
        rcases htok c (List.mem_cons_self c cs) with h | h
        · exact h
        · rw [hd] at h; exact absurd h (by decide)
      have hexp : expandRank (c :: cs) = c :: expandRank cs := by
        unfold expandRank
        rw [List.flatMap_cons, if_neg (by rw [hd]; exact Bool.false_ne_true)]
        rfl
      rw [hexp]
      show (if c = '1' then encodeRank (expandRank cs) (e + 1)
        else (if 0 < e then [digitChar e] else []) ++ c :: encodeRank (expandRank cs) 0) = _
      rw [if_neg (piece_ne_one hpc)]
      rw [ih 0 (fun x hx => htok x (List.mem_cons_of_mem c hx)) (noAdjacentDigits_tail hadj)
        (fun h0 => absurd h0 (by omega))]
      simp
    · -- c is a digit 1-8
      have he : e = 0 := by
        by_contra hne
        have := hhead (Nat.pos_of_ne_zero (by omega)) c rfl
        rw [hd] at this
        exact absurd this (by decide)
      subst he
      have hexp : expandRank (c :: cs) = List.replicate (digitVal c) '1' ++ expandRank cs := by
        unfold expandRank
        rw [List.flatMap_cons, if_pos hd]
      rw [hexp, encodeRank_replicate_one]
      have hheadcs : 0 < digitVal c → ∀ c₀, cs.head? = some c₀ → isDigit18 c₀ = false := by
        intro _ c₀ hc₀
        cases cs with
        | nil => exact absurd hc₀ (by simp)
        | cons b rest =>
          have : b = c₀ := by simpa using hc₀
          exact this ▸ noAdjacentDigits_head hadj hd
      rw [ih (0 + digitVal c) (fun x hx => htok x (List.mem_cons_of_mem c hx))
        (noAdjacentDigits_tail hadj) (by simpa using hheadcs)]
      rw [if_pos (by simpa using digitVal_pos hd)]
      simp [digitChar_digitVal hd]

theorem getD_set_ne {α : Type} {l : List α} {i j : Nat} (h : i ≠ j) (a d : α) :
    (l.set i a).getD j d = l.getD j d := by
  rw [List.getD_eq_getElem?_getD, List.getElem?_set_ne h, ← List.getD_eq_getElem?_getD]

theorem getD_set_self {α : Type} {l : List α} {i : Nat} (h : i < l.length) (a d : α) :
    (l.set i a).getD i d = a := by
  rw [List.getD_eq_getElem?_getD, List.getElem?_set_self h]
  rfl

theorem getD_replicate {α : Type} (n i : Nat) (a d : α) :
    (List.replicate n a).getD i d = if i < n then a else d := by
  rcases Nat.lt_or_ge i n with h | h
  · rw [if_pos h, List.getD_eq_getElem?_getD, List.getElem?_replicate, if_pos h]
    rfl
  · rw [if_neg (by omega), List.getD_eq_getElem?_getD,
      List.getElem?_eq_none (by simpa using h)]
    rfl

theorem rankWidth_cons (c : Char) (cs : List Char) :
    rankWidth (c :: cs) = (if isDigit18 c = true then digitVal c else 1) + rankWidth cs := by
  simp [rankWidth]

theorem expandRank_cons_digit {c : Char} (h : isDigit18 c = true) (cs : List Char) :
    expandRank (c :: cs) = List.replicate (digitVal c) '1' ++ expandRank cs := by
  simp [expandRank, h]

theorem expandRank_cons_piece {c : Char} (h : isDigit18 c = false) (cs : List Char) :
    expandRank (c :: cs) = c :: expandRank cs := by
  simp [expandRank, h]

theorem length_expandRank (t : List Char) : (expandRank t).length = rankWidth t := by
  induction t with
  | nil => rfl
  | cons c cs ih =>
    rcases hd : isDigit18 c with h | h
    · rw [expandRank_cons_piece hd, rankWidth_cons, if_neg (by simp [hd])]
      simp [ih]
      omega
    · rw [expandRank_cons_digit hd, rankWidth_cons, if_pos hd]
      simp [ih]

theorem fenInnerFold_getD (rank : Nat) (t : List Char) :
    ∀ (f : Nat) (pieces : List Char),
      (∀ c ∈ t, isPieceChar c = true ∨ isDigit18 c = true) →
      pieces.length = 64 →
      rank < 8 →
      f + rankWidth t ≤ 8 →
      (∀ j, f ≤ j → j < 8 → pieces.getD (rank * 8 + j) '1' = '1') →
      ∀ i : Nat,
        (t.foldl (applyFenToken rank) (pieces, f)).1.getD i '1' =
          if rank * 8 + f ≤ i ∧ i < rank * 8 + f + rankWidth t
          then (expandRank t).getD (i - (rank * 8 + f)) '1'
          else pieces.getD i '1' := by
  induction t with
  | nil =>
    intro f pieces _ _ _ _ _ i
    rw [if_neg (by simp only [rankWidth, List.map_nil, List.sum_nil]; omega)]
    rfl
  | cons c cs ih =>
    intro f pieces htok hlen hrank hwidth hone i
    rcases hd : isDigit18 c with hfalse | htrue
    · -- piece character: written at rank*8+f, file advances by 1
      have hpc : isPieceChar c = true := by
        rcases htok c (List.mem_cons_self c cs) with h | h
        · exact h
        · rw [hd] at h; exact absurd h (by decide)
      have hw : rankWidth (c :: cs) = 1 + rankWidth cs := by
        rw [rankWidth_cons, if_neg (by simp [hd])]
      have hf7 : f ≤ 7 := by rw [hw] at hwidth; omega
      have hstep : (c :: cs).foldl (applyFenToken rank) (pieces, f) =
          cs.foldl (applyFenToken rank) (pieces.set (rank * 8 + f) c, f + 1) := by
        rw [List.foldl_cons]
        congr 1
        unfold applyFenToken
        rw [if_neg (by simp [hd]), if_pos ⟨hpc, hf7⟩]
      rw [hstep]
      have hidx : rank * 8 + f < 64 := by omega
      rw [ih (f + 1) (pieces.set (rank * 8 + f) c)
        (fun x hx => htok x (List.mem_cons_of_mem c hx))
        (by simpa using hlen) hrank (by omega)
        (fun j hj1 hj2 => by
          rw [getD_set_ne (by omega)]
          exact hone j (by omega) hj2)]
      rw [expandRank_cons_piece hd, hw]
      by_cases hcase : rank * 8 + f ≤ i ∧ i < rank * 8 + f + (1 + rankWidth cs)
      · rw [if_pos hcase]
        by_cases heq : i = rank * 8 + f
        · subst heq
          rw [if_neg (by omega), getD_set_self (by omega), Nat.sub_self, List.getD_cons_zero]
        · have h1 : rank * 8 + (f + 1) ≤ i := by omega
          rw [if_pos ⟨h1, by omega⟩]
          obtain ⟨k, hk⟩ : ∃ k, i - (rank * 8 + f) = k + 1 := ⟨i - (rank * 8 + f) - 1, by omega⟩
          rw [hk, List.getD_cons_succ]
          congr 1
          omega
      · rw [if_neg hcase, if_neg (by omega), getD_set_ne (by omega)]
    · -- digit 1-8: file advances by digitVal c, nothing written
      have hw : rankWidth (c :: cs) = digitVal c + rankWidth cs := by
        rw [rankWidth_cons, if_pos hd]
      have hstep : (c :: cs).foldl (applyFenToken rank) (pieces, f) =
          cs.foldl (applyFenToken rank) (pieces, f + digitVal c) := by
        rw [List.foldl_cons]
        congr 1
        unfold applyFenToken
        rw [if_pos hd]
      rw [hstep]
      rw [ih (f + digitVal c) pieces
        (fun x hx => htok x (List.mem_cons_of_mem c hx))
        hlen hrank (by omega) (fun j hj1 hj2 => hone j (by omega) hj2)]
      rw [expandRank_cons_digit hd, hw]
      by_cases hcase : rank * 8 + f ≤ i ∧ i < rank * 8 + f + (digitVal c + rankWidth cs)
      · rw [if_pos hcase]
        by_cases hin : i < rank * 8 + f + digitVal c
        · rw [if_neg (by omega)]
          rw [List.getD_append _ _ _ _ (by
            rw [List.length_replicate]; omega)]
          rw [getD_replicate, if_pos (by omega)]
          have h1 := hone (i - rank * 8) (by omega) (by omega)
          rw [show rank * 8 + (i - rank * 8) = i from by omega] at h1
          exact h1
        · rw [if_pos ⟨by omega, by omega⟩]
          rw [List.getD_append_right _ _ _ _ (by rw [List.length_replicate]; omega)]
          congr 1
          rw [List.length_replicate]
          omega
      · rw [if_neg hcase, if_neg (by omega)]

theorem fenInnerFold_length (rank : Nat) (t : List Char) :
    ∀ st : List Char × Nat, st.1.length = 64 →
      (t.foldl (applyFenToken rank) st).1.length = 64 := by
  induction t with
  | nil => exact fun st h => h
  | cons c cs ih => exact fun st h => ih _ (applyFenToken_length h)

theorem fenOuterFold_getD (ranks : List (List Char)) (hlen8 : ranks.length = 8)
    (hwf : ∀ r ∈ ranks, WellFormedRank r) :
    ∀ k : Nat, k ≤ 8 →
      ((List.range k).foldl
          (fun pieces rank => (((ranks.getD rank []).foldl (applyFenToken rank) (pieces, 0))).1)
          (List.replicate 64 '1')).length = 64 ∧
        ∀ i : Nat,
          ((List.range k).foldl
              (fun pieces rank => (((ranks.getD rank []).foldl (applyFenToken rank) (pieces, 0))).1)
              (List.replicate 64 '1')).getD i '1' =
            if i < k * 8 then (expandRank (ranks.getD (i / 8) [])).getD (i % 8) '1' else '1' := by
  intro k
  induction k with
  | zero =>
    intro _
    refine ⟨by simp, fun i => ?_⟩
    rw [if_neg (by omega), List.range_zero, List.foldl_nil, getD_replicate]
    split <;> rfl
  | succ k ih =>
    intro hk8
    have hk := ih (by omega)
    have hmemk : ranks.getD k [] ∈ ranks := by
      have hklt : k < ranks.length := by omega
      rw [List.getD_eq_getElem?_getD, List.getElem?_eq_getElem hklt]
      exact List.getElem_mem hklt
    obtain ⟨htokk, hwidthk, _⟩ := hwf _ hmemk
    rw [List.range_succ, List.foldl_append, List.foldl_cons, List.foldl_nil]
    constructor
    · exact fenInnerFold_length k _ _ hk.1
    · intro i
      rw [fenInnerFold_getD k (ranks.getD k []) 0 _ htokk hk.1 (by omega)
        (by omega) (fun j _ hj2 => by rw [hk.2 (k * 8 + j), if_neg (by omega)])]
      rw [hwidthk]
      by_cases hcase : k * 8 + 0 ≤ i ∧ i < k * 8 + 0 + 8
      · rw [if_pos hcase, if_pos (by omega)]
        have hdiv : i / 8 = k := by omega
        have hmod : i % 8 = i - (k * 8 + 0) := by omega
        rw [hdiv, hmod]
      · rw [if_neg hcase, hk.2 i]
        by_cases h2 : i < k * 8
        · rw [if_pos h2, if_pos (by omega)]
        · rw [if_neg h2, if_neg (by omega)]

theorem intercalate_cons₂ {α : Type} (s a b : List α) (L : List (List α)) :
    List.intercalate s (a :: b :: L) = a ++ s ++ List.intercalate s (b :: L) := by
  simp [List.intercalate, List.intersperse]

theorem mem_intercalate {α : Type} (s : List α) (L : List (List α)) :
    ∀ c : α, c ∈ List.intercalate s L → c ∈ s ∨ ∃ r ∈ L, c ∈ r := by
  induction L with
  | nil => intro c h; simp [List.intercalate] at h
  | cons a L ih =>
    intro c h
    cases L with
    | nil =>
      have : c ∈ a := by simpa [List.intercalate] using h
      exact Or.inr ⟨a, by simp, this⟩
    | cons b L' =>
      rw [intercalate_cons₂] at h
      rcases List.mem_append.mp h with h1 | h1
      · rcases List.mem_append.mp h1 with h2 | h2
        · exact Or.inr ⟨a, by simp, h2⟩
        · exact Or.inl h2
      · rcases ih c h1 with h2 | ⟨r, hr, hcr⟩
        · exact Or.inl h2
        · exact Or.inr ⟨r, List.mem_cons_of_mem a hr, hcr⟩

theorem dropWhile_eq_self_of_all {p : Char → Bool} {l : List Char}
    (h : ∀ c ∈ l, p c = false) : l.dropWhile p = l := by
  cases l with
  | nil => rfl
  | cons c cs =>
    rw [List.dropWhile_cons, if_neg (by simp [h c (List.mem_cons_self c cs)])]

theorem takeWhile_eq_self_of_all {p : Char → Bool} {l : List Char}
    (h : ∀ c ∈ l, p c = true) : l.takeWhile p = l := by
  induction l with
  | nil => rfl
  | cons c cs ih =>
    rw [List.takeWhile_cons, if_pos (h c (List.mem_cons_self c cs)),
      ih (fun x hx => h x (List.mem_cons_of_mem c hx))]

theorem trimChars_eq_self {l : List Char} (h : ∀ c ∈ l, isJsSpace c = false) :
    trimChars l = l := by
  unfold trimChars
  rw [dropWhile_eq_self_of_all h,
    dropWhile_eq_self_of_all (fun c hc => h c (List.mem_reverse.mp hc)),
    List.reverse_reverse]

theorem fenBoardPart_eq_self {l : List Char} (h : ∀ c ∈ l, isJsSpace c = false) :
    fenBoardPart l = l := by
  unfold fenBoardPart
  rw [trimChars_eq_self h]
  exact takeWhile_eq_self_of_all (fun c hc => by simp [h c hc])

theorem fenBoardPart_append_suffix {b : List Char} (hne : b ≠ [])
    (h : ∀ c ∈ b, isJsSpace c = false) :
    fenBoardPart (b ++ fenSuffix) = b := by
  unfold fenBoardPart
  have htrim : trimChars (b ++ fenSuffix) = b ++ fenSuffix := by
    unfold trimChars
    have h1 : (b ++ fenSuffix).dropWhile isJsSpace = b ++ fenSuffix := by
      cases b with
      | nil => exact absurd rfl hne
      | cons c cs =>
        rw [List.cons_append, List.dropWhile_cons,
          if_neg (by simp [h c (List.mem_cons_self c cs)])]
    rw [h1]
    have h2 : (b ++ fenSuffix).reverse.dropWhile isJsSpace = (b ++ fenSuffix).reverse := by
      rw [List.reverse_append]
      rw [show fenSuffix.reverse = '1' :: [' ', '0', ' ', '-', ' ', '-', ' ', 'w', ' '] from rfl]
      rw [List.cons_append, List.dropWhile_cons, if_neg (by decide)]
    rw [h2, List.reverse_reverse]
  rw [htrim, List.takeWhile_append,
    if_pos (by rw [takeWhile_eq_self_of_all (fun c hc => by simp [h c hc])]),
    show fenSuffix.takeWhile (fun c => !(isJsSpace c)) = [] from rfl, List.append_nil]

/-- C8: for a well-formed 8-rank FEN board part `b`, converting to the flat
64-square array with `fenToPieces` and back with `piecesToFen` recovers `b` as
the board part of the produced FEN string. -/
theorem fen_roundTrip (b : List Char) (hb : WellFormedBoard b) :
    fenBoardPart (piecesToFen (fenToPieces b)) = b := by
  obtain ⟨hlen8, hwf⟩ := hb
  have hnospace : ∀ c ∈ b, isJsSpace c = false := by
    intro c hc
    rw [← List.intercalate_splitOn b '/'] at hc
    rcases mem_intercalate ['/'] (b.splitOn '/') c hc with h1 | ⟨r, hr, hcr⟩
    · have : c = '/' := by simpa using h1
      subst this; decide
    · exact token_not_space ((hwf r hr).1 c hcr)
  have hfb : fenRanks b = b.splitOn '/' := by
    unfold fenRanks
    rw [fenBoardPart_eq_self hnospace]
  have hwf' : ∀ r ∈ fenRanks b, WellFormedRank r := by rw [hfb]; exact hwf
  have hlen8' : (fenRanks b).length = 8 := by rw [hfb]; exact hlen8
  have hboard : fenToPieces b = (List.range 8).foldl
      (fun pieces rank => ((((fenRanks b).getD rank []).foldl (applyFenToken rank) (pieces, 0))).1)
      (List.replicate 64 '1') := by
    unfold fenToPieces
    rw [if_neg (by rw [hlen8']; omega)]
  have h8 := fenOuterFold_getD (fenRanks b) hlen8' hwf' 8 le_rfl
  have hmemr : ∀ r < 8, (fenRanks b).getD r [] ∈ fenRanks b := by
    intro r hr
    have hrlt : r < (fenRanks b).length := by omega
    rw [List.getD_eq_getElem?_getD, List.getElem?_eq_getElem hrlt]
    exact List.getElem_mem hrlt
  have hrank8 : ∀ r < 8, rankOfPieces (fenToPieces b) r = expandRank ((fenRanks b).getD r []) := by
    intro r hr
    obtain ⟨_, hwidth, _⟩ := hwf' _ (hmemr r hr)
    unfold rankOfPieces
    rw [List.map_congr_left (fun file hfile => ?_),
      map_getD_range (expandRank ((fenRanks b).getD r [])) 8 '1'
        (by rw [length_expandRank, hwidth])]
    have hfile8 : file < 8 := List.mem_range.mp hfile
    rw [hboard, h8.2 (r * 8 + file), if_pos (by omega)]
    have hdiv : (r * 8 + file) / 8 = r := by omega
    have hmod : (r * 8 + file) % 8 = file := by omega
    rw [hdiv, hmod]
  have hencode : ((List.range 8).map fun rank =>
      encodeRank (rankOfPieces (fenToPieces b) rank) 0) = fenRanks b := by
    rw [List.map_congr_left (fun r hr => ?_), map_getD_range (fenRanks b) 8 [] hlen8']
    have hr8 : r < 8 := List.mem_range.mp hr
    obtain ⟨htok, _, hadj⟩ := hwf' _ (hmemr r hr8)
    rw [hrank8 r hr8, encode_expand_aux _ 0 htok hadj (fun h0 => absurd h0 (by omega))]
    simp
  have hbne : b ≠ [] := by
    intro hbe
    rw [hbe, List.splitOn_nil] at hlen8
    simp at hlen8
  unfold piecesToFen
  rw [hencode, hfb, List.intercalate_splitOn b '/']
  exact fenBoardPart_append_suffix hbne hnospace

/-- The standard chess starting-position board part
`rnbqkbnr/pppppppp/8/8/8/8/PPPPPPPP/RNBQKBNR`. -/
def startBoard : List Char :=
  ['r', 'n', 'b', 'q', 'k', 'b', 'n', 'r', '/',
   'p', 'p', 'p', 'p', 'p', 'p', 'p', 'p', '/',
   '8', '/', '8', '/', '8', '/', '8', '/',
   'P', 'P', 'P', 'P', 'P', 'P', 'P', 'P', '/',
   'R', 'N', 'B', 'Q', 'K', 'B', 'N', 'R']

instance (t : List Char) : Decidable (WellFormedRank t) := by
  unfold WellFormedRank
  infer_instance

instance (b : List Char) : Decidable (WellFormedBoard b) := by
  unfold WellFormedBoard
  infer_instance

/-- Witness for C8 at the starting-position board part. -/
theorem fen_roundTrip_witness :
    WellFormedBoard startBoard ∧
      fenBoardPart (piecesToFen (fenToPieces startBoard)) = startBoard :=
  ⟨by decide, fen_roundTrip startBoard (by decide)⟩

/-! ### src/vision/change-detector.ts -/

/-- The three classifications returned by `ChangeDetector.detect`. -/
inductive ChangeType
  | noChange
  | move
  | newGame
  deriving DecidableEq

/-- The private `lastFen` field of `ChangeDetector`. -/
structure ChangeDetectorState where
  lastFen : Option (List Char)
  deriving DecidableEq

/-- Digit expansion of `countDifferences`:
`f.replace(/\d/g, d => '.'.repeat(parseInt(d)))`. -/
def expandDigits (f : List Char) : List Char :=
  f.flatMap fun c => if c.isDigit then List.replicate (c.toNat - 48) '.' else [c]

/-- Slash removal of `countDifferences`: `.replace(/\//g, '')`. -/
def stripSlashes (f : List Char) : List Char :=
  f.filter fun c => decide (c ≠ '/')

/-- `countDifferences` from change-detector.ts: compare position `i` of the
two expanded board strings for `i = 0..63`; an out-of-range access on both
sides (`undefined !== undefined`) compares equal. -/
def countDifferences (fen1 fen2 : List Char) : Nat :=
  let board1 := (fen1.splitOn ' ').getD 0 []
  let board2 := (fen2.splitOn ' ').getD 0 []
  let s1 := stripSlashes (expandDigits board1)
  let s2 := stripSlashes (expandDigits board2)
  ((List.range 64).filter fun i => decide (s1[i]? ≠ s2[i]?)).length

/-- `ChangeDetector.detect`: returns the updated detector state, the change
classification, and the echoed FEN. -/
def ChangeDetector.detect (s : ChangeDetectorState) (currentFen : List Char) :
    ChangeDetectorState × ChangeType × List Char :=
  match s.lastFen with
  | none => (⟨some currentFen⟩, ChangeType.newGame, currentFen)
  | some last =>
    if currentFen = last then (s, ChangeType.noChange, currentFen)
    else if countDifferences last currentFen > 10 then (⟨some currentFen⟩, ChangeType.newGame, currentFen)
    else (⟨some currentFen⟩, ChangeType.move, currentFen)

/-- `ChangeDetector.reset`. -/
def ChangeDetector.reset (_ : ChangeDetectorState) : ChangeDetectorState := ⟨none⟩

/-- All-empty board FEN part `8/8/8/8/8/8/8/8`. -/
def emptyBoardFen : List Char :=
  ['8', '/', '8', '/', '8', '/', '8', '/', '8', '/', '8', '/', '8', '/', '8']

/-- A board differing from the empty board in exactly 10 squares. -/
def tenDiffFen : List Char :=
  ['P', 'P', 'P', 'P', 'P', 'P', 'P', 'P', '/', 'P', 'P', '6', '/',
   '8', '/', '8', '/', '8', '/', '8', '/', '8', '/', '8']

/-- A board differing from the empty board in exactly 11 squares. -/
def elevenDiffFen : List Char :=
  ['P', 'P', 'P', 'P', 'P', 'P', 'P', 'P', '/', 'P', 'P', 'P', '5', '/',
   '8', '/', '8', '/', '8', '/', '8', '/', '8', '/', '8']

set_option maxHeartbeats 2000000 in
/-- C2: `ChangeDetector.detect` yields NewGame and records the FEN on the
first observation; NoChange on an identical FEN; otherwise counts differing
squares of the expanded 64-square representations and yields NewGame exactly
when more than 10 differ — concretely, a 10-square diff is a Move and an
11-square diff is a NewGame. -/
theorem changeDetector_detect_spec :
    (∀ fen, ChangeDetector.detect ⟨none⟩ fen = (⟨some fen⟩, ChangeType.newGame, fen)) ∧
      (∀ fen, ChangeDetector.detect ⟨some fen⟩ fen = (⟨some fen⟩, ChangeType.noChange, fen)) ∧
      (∀ last fen, fen ≠ last →
        ChangeDetector.detect ⟨some last⟩ fen =
          (⟨some fen⟩,
            if countDifferences last fen > 10 then ChangeType.newGame else ChangeType.move,
            fen)) ∧
      (countDifferences emptyBoardFen tenDiffFen = 10 ∧
        (ChangeDetector.detect ⟨some emptyBoardFen⟩ tenDiffFen).2.1 = ChangeType.move) ∧
      (countDifferences emptyBoardFen elevenDiffFen = 11 ∧
        (ChangeDetector.detect ⟨some emptyBoardFen⟩ elevenDiffFen).2.1 = ChangeType.newGame) := by
  refine ⟨fun fen => rfl, fun fen => by simp [ChangeDetector.detect], ?_, ?_, ?_⟩
  · intro last fen hne
    show (if fen = last then _ else _) = _
    rw [if_neg hne]
    split <;> rfl
  · exact ⟨by decide, by decide⟩
  · exact ⟨by decide, by decide⟩

/-- Witness for C2: the quantified clauses applied at the concrete empty-board
and ten-square-diff inputs. -/
theorem changeDetector_detect_spec_witness :
    ChangeDetector.detect ⟨some emptyBoardFen⟩ tenDiffFen =
      (⟨some tenDiffFen⟩,
        if countDifferences emptyBoardFen tenDiffFen > 10 then ChangeType.newGame
        else ChangeType.move,
        tenDiffFen) :=
  changeDetector_detect_spec.2.2.1 emptyBoardFen tenDiffFen (by decide)

/-! ### PieceClassifier heuristic fallback and occupancy (src/background piece classifier) -/

/-- White back-rank labels used by the heuristic fallback. -/
def BACK_RANK_WHITE : List Char := ['R', 'N', 'B', 'Q', 'K', 'B', 'N', 'R']

/-- Black back-rank labels used by the heuristic fallback. -/
def BACK_RANK_BLACK : List Char := ['r', 'n', 'b', 'q', 'k', 'b', 'n', 'r']

/-- The per-tile statistic of `preprocessBoard`: over the tile's sampled
luminances the code computes `mean = sum / pixelCount` and
`variance = max(0, sumSq / pixelCount - mean * mean)`; the value stored in the
`occupancy` array is `Math.sqrt(variance)`. `tileVariance` is that variance. -/
def tileVariance (samples : List ℚ) : ℚ :=
  let n : ℚ := samples.length
  let mean := samples.sum / n
  max 0 ((samples.map fun l => l * l).sum / n - mean * mean)

/-- Characterizes the occupancy value stored by `preprocessBoard` for a tile:
`o = Math.sqrt(tileVariance samples)`, the unique nonnegative square root. -/
def IsTileOccupancy (samples : List ℚ) (o : ℚ) : Prop :=
  0 ≤ o ∧ o * o = tileVariance samples

/-- One square of `heuristicPiecesFromOccupancy`: the stored occupancy value
is compared with the fixed `threshold = 0.08`; below it the square is empty
with confidence `max(0.2, 1 - oc/threshold)`, otherwise the label is assigned
by rank position. -/
def heuristicSquare (oc : ℚ) (rank file : Nat) : Char × ℚ :=
  if oc < 8/100 then ('1', max (2/10) (1 - oc / (8/100)))
  else if rank = 0 then (BACK_RANK_BLACK.getD file '1', 8/10)
  else if rank = 1 then ('p', 75/100)
  else if rank = 6 then ('P', 75/100)
  else if rank = 7 then (BACK_RANK_WHITE.getD file '1', 8/10)
  else ('P', 45/100)

/-- `heuristicPiecesFromOccupancy`: label and confidence for square index
`idx`, with `rank = idx / 8` and `file = idx % 8`. -/
def heuristicPiecesFromOccupancy (occupancy : Fin 64 → ℚ) (idx : Fin 64) : Char × ℚ :=
  heuristicSquare (occupancy idx) (idx.val / 8) (idx.val % 8)

/-- A 32×32 tile of sampled luminances: half the pixels 0, half 51/255 = 1/5.
Its luminance variance is exactly 0.01 and its standard deviation 0.1. -/
def uniformishTile : List ℚ := List.replicate 512 0 ++ List.replicate 512 (1/5)

theorem tileVariance_uniformishTile : tileVariance uniformishTile = 1/100 := by
  simp only [tileVariance, uniformishTile, List.map_append, List.map_replicate,
    List.sum_append, List.sum_replicate, List.length_append, List.length_replicate,
    nsmul_eq_mul]
  norm_num

/-- Counterexample to C5 as stated: the code thresholds the *stored occupancy
value*, which is the square root of the luminance variance, not the variance.
A tile with luminance variance 0.01 (below 0.08) has occupancy value
√0.01 = 0.1, which is not below 0.08, so the fallback classifies it as
occupied — here mid-board square index 24 (rank 3) receives label 'P', not
the empty label '1'. -/
theorem heuristic_variance_claim_false :
    tileVariance uniformishTile < 8/100 ∧
      IsTileOccupancy uniformishTile (1/10) ∧
      (heuristicPiecesFromOccupancy (fun _ => 1/10) ⟨24, by omega⟩).1 = 'P' ∧
      ('P' : Char) ≠ '1' := by
  refine ⟨?_, ⟨by norm_num, ?_⟩, ?_, by decide⟩
  · rw [tileVariance_uniformishTile]; norm_num
  · rw [tileVariance_uniformishTile]; norm_num
  · unfold heuristicPiecesFromOccupancy heuristicSquare
    norm_num

/-- C5 amended: every tile whose *occupancy value* (the square root of the
luminance variance — equivalently, whose variance is below 0.08² = 0.0064) is
below the fixed 0.08 threshold is labeled empty with confidence at least
0.2. -/
theorem heuristic_empty_of_low_occupancy (samples : List ℚ) (occupancy : Fin 64 → ℚ)
    (idx : Fin 64) (hocc : IsTileOccupancy samples (occupancy idx))
    (hvar : tileVariance samples < 64/10000) :
    (heuristicPiecesFromOccupancy occupancy idx).1 = '1' ∧
      2/10 ≤ (heuristicPiecesFromOccupancy occupancy idx).2 := by
  obtain ⟨h0, hsq⟩ := hocc
  have hlt : occupancy idx < 8/100 := by nlinarith [hsq, hvar, h0]
  unfold heuristicPiecesFromOccupancy heuristicSquare
  rw [if_pos hlt]
  exact ⟨rfl, le_max_left _ _⟩

theorem tileVariance_zeroTile : tileVariance (List.replicate 1024 (0 : ℚ)) = 0 := by
  simp only [tileVariance, List.map_replicate, List.sum_replicate, List.length_replicate,
    nsmul_eq_mul]
  norm_num

/-- Witness for the amended C5 at the all-zero (truly uniform) tile, whose
variance and occupancy value are 0. -/
theorem heuristic_empty_of_low_occupancy_witness :
    (heuristicPiecesFromOccupancy (fun _ => 0) ⟨0, by omega⟩).1 = '1' ∧
      2/10 ≤ (heuristicPiecesFromOccupancy (fun _ => 0) ⟨0, by omega⟩).2 :=
  heuristic_empty_of_low_occupancy (List.replicate 1024 0) (fun _ => 0) ⟨0, by omega⟩
    ⟨le_refl 0, by rw [tileVariance_zeroTile]; norm_num⟩
    (by rw [tileVariance_zeroTile]; norm_num)

/-! ### vision-worker (src/unnamed/part_000) and VisionPipeline (src/unnamed/part_005)

The worker is single-threaded: its `message` handler and the `async`
`handleProcess` bodies interleave only at `await` points. `handleProcess` is
therefore modelled as one big step whose environment carries the outcome of
the two awaited calls (`boardDetector.detect`, `classifyDetailed`) and the
highest `cancel` id delivered while each await was pending. The wall-clock
`performance.now()` timing fields (`detectorMs`, `classifierMs`,
`processingMs`) are real-time measurements outside the model and are not
carried. -/

/-- A `Rect` / `BoardRegion` with JS-number fields. -/
structure BoardRegion where
  x : ℚ
  y : ℚ
  width : ℚ
  height : ℚ
  deriving DecidableEq

/-- Result of `PieceClassifier.classifyDetailed` (64-element arrays). -/
structure Classification where
  pieces : Fin 64 → Char
  confidences : Fin 64 → ℚ
  averageConfidence : ℚ
  wasFlipped : Bool

/-- Worker-global mutable state of vision-worker.ts. -/
structure WorkerState where
  cachedBoardRegion : Option BoardRegion
  lastBoardDetectionAt : ℚ
  canceledRequestId : ℕ
  previousPieces : Option (Fin 64 → Char)

/-- A `process` message (the frame itself is abstracted; its effect on
detection and classification is carried by `WorkerEnv`). -/
structure ProcessMessage where
  requestId : ℕ
  now : ℚ
  boardRefreshMs : ℚ
  confidenceThreshold : ℚ
  forceFlip : Bool

/-- Environment of one `handleProcess` run: the outcome of the two awaited
calls (`Except.error` models a rejected promise caught by the try/catch) and
the highest cancel id delivered by the message handler while each await was
pending (0 if none; the handler keeps the running maximum). -/
structure WorkerEnv where
  detectResult : Except (List Char) (Option BoardRegion)
  classifyResult : Except (List Char) Classification
  cancelDuringDetect : ℕ
  cancelDuringClassify : ℕ

/-- A message posted by the worker: `ProcessResult` or `ErrorResult`. -/
inductive WorkerOutput
  | result (requestId : ℕ) (fen : List Char) (boardRegion : BoardRegion)
      (confidenceAverage : ℚ) (lowConfidenceSquares : ℕ) (wasFlipped : Bool)
  | error (requestId : ℕ) (message : List Char)
  deriving DecidableEq

/-- The `requestId` field common to both worker message kinds. -/
def WorkerOutput.requestId : WorkerOutput → ℕ
  | .result rid _ _ _ _ _ => rid
  | .error rid _ => rid

/-- The confidence-smoothing loop of `handleProcess` (lines 113-123): with a
previous snapshot, every square whose confidence is strictly below the
threshold takes the previous snapshot's label and increments
`lowConfidenceSquares`. -/
def smoothPieces (prev : Option (Fin 64 → Char)) (cls : Classification) (threshold : ℚ) :
    (Fin 64 → Char) × ℕ :=
  match prev with
  | none => (cls.pieces, 0)
  | some pv =>
    (fun i => if cls.confidences i < threshold then pv i else cls.pieces i,
      (Finset.univ.filter fun i : Fin 64 => cls.confidences i < threshold).card)

/-- The classification phase of `handleProcess` (from the `classifyDetailed`
await to the end). `region` is the non-null `cachedBoardRegion` used for the
crop and echoed in the result; `isCanceled(id)` is `id ≤ canceledRequestId`.
After the post-classification check (line 109) there is no further await, so
both it and the pre-post check (line 140) observe the same
`canceledRequestId`. -/
def classifyPhase (m : ProcessMessage) (env : WorkerEnv) (region : BoardRegion)
    (s1 : WorkerState) : WorkerState × Option WorkerOutput :=
  match env.classifyResult with
  | .error e =>
    let s2 := { s1 with canceledRequestId := max s1.canceledRequestId env.cancelDuringClassify }
    (s2, if m.requestId ≤ s2.canceledRequestId then none else some (.error m.requestId e))
  | .ok cls =>
    let s2 := { s1 with canceledRequestId := max s1.canceledRequestId env.cancelDuringClassify }
    if m.requestId ≤ s2.canceledRequestId then (s2, none)
    else
      let sm := smoothPieces s2.previousPieces cls m.confidenceThreshold
      let s3 := { s2 with previousPieces := some sm.1 }
      if m.requestId ≤ s3.canceledRequestId then (s3, none)
      else (s3, some (.result m.requestId (piecesToFen (List.ofFn sm.1)) region
        cls.averageConfidence sm.2 cls.wasFlipped))

/-- `handleProcess` from vision-worker.ts as one big step. The branch
structure mirrors the source: entry cancellation check (line 81); conditional
board re-detection (line 90) with the cache and timestamp assigned *before*
the combined null/cancel check of line 97; a rejected await jumps to the
catch block, which posts an `ErrorResult` unless the request is canceled. -/
def handleProcess (m : ProcessMessage) (env : WorkerEnv) (s : WorkerState) :
    WorkerState × Option WorkerOutput :=
  if m.requestId ≤ s.canceledRequestId then (s, none)
  else if s.cachedBoardRegion = none ∨ m.boardRefreshMs ≤ m.now - s.lastBoardDetectionAt then
    match env.detectResult with
    | .error e =>
      let s1 := { s with canceledRequestId := max s.canceledRequestId env.cancelDuringDetect }
      (s1, if m.requestId ≤ s1.canceledRequestId then none else some (.error m.requestId e))
    | .ok r =>
      let s1 := { s with cachedBoardRegion := r,
                          lastBoardDetectionAt := m.now,
                          canceledRequestId := max s.canceledRequestId env.cancelDuringDetect }
      match r with
      | none => (s1, none)
      | some region =>
        if m.requestId ≤ s1.canceledRequestId then (s1, none)
        else classifyPhase m env region s1
  else
    match s.cachedBoardRegion with
    | none => (s, none)
    | some region =>
      if m.requestId ≤ s.canceledRequestId then (s, none)
      else classifyPhase m env region s

/-- `VisionPipelineOptions`. -/
structure VisionPipelineOptions where
  captureIntervalMs : ℚ
  boardRefreshMs : ℚ
  lowConfidenceThreshold : ℚ

/-- `DEFAULT_OPTIONS` of the pipeline. -/
def DEFAULT_PIPELINE_OPTIONS : VisionPipelineOptions :=
  { captureIntervalMs := 1500, boardRefreshMs := 1000, lowConfidenceThreshold := 58/100 }

/-- Mutable state of `VisionPipeline` (worker/capture handles are
structural; `changeDetector` is the owned `ChangeDetector` state). -/
structure PipelineState where
  options : VisionPipelineOptions
  running : Bool
  latestRequestId : ℕ
  lastDeliveredAt : ℚ
  forceFlip : Bool
  changeDetector : ChangeDetectorState

/-- Performance stats carried by a pipeline update (wall-clock phase timings
omitted, as in the worker model). -/
structure VisionPerformanceStats where
  fps : ℚ
  confidenceAverage : ℚ
  lowConfidenceSquares : ℕ

/-- `VisionPipelineUpdate`. -/
structure VisionPipelineUpdate where
  fen : List Char
  boardRegion : BoardRegion
  change : ChangeType
  timestamp : ℚ
  wasFlipped : Bool
  performance : VisionPerformanceStats

/-- Messages the pipeline posts to the worker. -/
inductive WorkerBound
  | cancel (requestId : ℕ)
  | process (m : ProcessMessage)

/-- `VisionPipeline.cancelLatest`. -/
def cancelLatest (p : PipelineState) : List WorkerBound :=
  if p.latestRequestId = 0 then [] else [WorkerBound.cancel p.latestRequestId]

/-- `VisionPipeline.handleFrame` for a frame captured at time `now`: when
running, cancel the outstanding id, then submit the incremented id. -/
def handleFrame (p : PipelineState) (now : ℚ) : PipelineState × List WorkerBound :=
  if p.running = false then (p, [])
  else
    ({ p with latestRequestId := p.latestRequestId + 1 },
      cancelLatest p ++ [WorkerBound.process
        { requestId := p.latestRequestId + 1, now := now,
          boardRefreshMs := p.options.boardRefreshMs,
          confidenceThreshold := p.options.lowConfidenceThreshold,
          forceFlip := p.forceFlip }])

/-- `VisionPipeline.handleWorkerMessage` at wall-clock time `now`: drop when
not running; drop any message whose `requestId` differs from the latest
submitted id; log and drop errors; otherwise compute fps from the
inter-delivery delta, feed the change detector, and emit the update. -/
def handleWorkerMessage (p : PipelineState) (msg : WorkerOutput) (now : ℚ) :
    PipelineState × Option VisionPipelineUpdate :=
  if p.running = false then (p, none)
  else if msg.requestId ≠ p.latestRequestId then (p, none)
  else
    match msg with
    | .error _ _ => (p, none)
    | .result _ fen region avg low fl =>
      let delta := if 0 < p.lastDeliveredAt then now - p.lastDeliveredAt else 0
      let det := ChangeDetector.detect p.changeDetector fen
      ({ p with lastDeliveredAt := now, changeDetector := det.1 },
        some { fen := fen, boardRegion := region, change := det.2.1, timestamp := now,
               wasFlipped := fl,
               performance := { fps := if 0 < delta then 1000 / delta else 0,
                                confidenceAverage := avg, lowConfidenceSquares := low } })

/-- `VisionPipeline.stop`. -/
def stopPipeline (p : PipelineState) : PipelineState :=
  { p with running := false,
           changeDetector := ChangeDetector.reset p.changeDetector,
           lastDeliveredAt := 0 }

/-- `VisionPipeline.start` (idempotent while running; callback wiring is
structural). -/
def startPipeline (p : PipelineState) : PipelineState :=
  if p.running then p else { p with running := true }

/-- External events driving the pipeline. -/
inductive PipelineEvent
  | frame (now : ℚ)
  | worker (msg : WorkerOutput) (now : ℚ)
  | stopEv
  | startEv

/-- One pipeline state transition per event. -/
def stepPipeline (p : PipelineState) : PipelineEvent → PipelineState
  | .frame now => (handleFrame p now).1
  | .worker msg now => (handleWorkerMessage p msg now).1
  | .stopEv => stopPipeline p
  | .startEv => startPipeline p

/-- Run a sequence of pipeline events. -/
def runPipeline (p : PipelineState) (evs : List PipelineEvent) : PipelineState :=
  evs.foldl stepPipeline p

theorem stepPipeline_latest_mono (p : PipelineState) (e : PipelineEvent) :
    p.latestRequestId ≤ (stepPipeline p e).latestRequestId := by
  cases e with
  | frame now =>
    show p.latestRequestId ≤ (handleFrame p now).1.latestRequestId
    unfold handleFrame
    split
    · exact le_refl _
    · exact Nat.le_succ _
  | worker msg now =>
    show p.latestRequestId ≤ (handleWorkerMessage p msg now).1.latestRequestId
    unfold handleWorkerMessage
    split
    · exact le_refl _
    · split
      · exact le_refl _
      · cases msg with
        | error _ _ => exact le_refl _
        | result _ _ _ _ _ _ => exact le_refl _
  | stopEv => exact le_refl _
  | startEv =>
    show p.latestRequestId ≤ (startPipeline p).latestRequestId
    unfold startPipeline
    split <;> exact le_refl _

theorem runPipeline_latest_mono (evs : List PipelineEvent) :
    ∀ p : PipelineState, p.latestRequestId ≤ (runPipeline p evs).latestRequestId := by
  induction evs with
  | nil => exact fun p => le_refl _
  | cons e evs ih =>
    intro p
    exact le_trans (stepPipeline_latest_mono p e) (ih (stepPipeline p e))

theorem classifyPhase_canceled (m : ProcessMessage) (env : WorkerEnv) (region : BoardRegion)
    (s1 : WorkerState) :
    (classifyPhase m env region s1).1.canceledRequestId =
      max s1.canceledRequestId env.cancelDuringClassify := by
  unfold classifyPhase
  cases env.classifyResult with
  | error e => rfl
  | ok cls =>
    simp only
    split
    · rfl
    · rfl

theorem classifyPhase_out (m : ProcessMessage) (env : WorkerEnv) (region : BoardRegion)
    (s1 s' : WorkerState) (out : WorkerOutput)
    (h : classifyPhase m env region s1 = (s', some out)) :
    out.requestId = m.requestId ∧
      ¬ m.requestId ≤ max s1.canceledRequestId env.cancelDuringClassify ∧
      s'.canceledRequestId = max s1.canceledRequestId env.cancelDuringClassify := by
  unfold classifyPhase at h
  cases henv : env.classifyResult with
  | error e =>
    rw [henv] at h
    simp only at h
    split at h
    · simp at h
    · rename_i hc
      simp only [Prod.mk.injEq, Option.some.injEq] at h
      obtain ⟨hs', hout⟩ := h
      subst hout
      exact ⟨rfl, hc, by rw [← hs']⟩
  | ok cls =>
    rw [henv] at h
    simp only at h
    split at h
    · simp at h
    · rename_i hc
      simp only [Prod.mk.injEq, Option.some.injEq] at h
      obtain ⟨hs', hout⟩ := h
      subst hout
      exact ⟨rfl, hc, by rw [← hs']⟩

theorem handleProcess_out (m : ProcessMessage) (env : WorkerEnv) (s s' : WorkerState)
    (out : WorkerOutput) (h : handleProcess m env s = (s', some out)) :
    out.requestId = m.requestId ∧ s.canceledRequestId < m.requestId ∧
      s'.canceledRequestId < m.requestId := by
  unfold handleProcess at h
  split at h
  · simp at h
  · rename_i hentry
    split at h
    · -- re-detection branch
      cases hdet : env.detectResult with
      | error e =>
        rw [hdet] at h
        simp only at h
        split at h
        · simp at h
        · rename_i hc
          simp only [Prod.mk.injEq, Option.some.injEq] at h
          obtain ⟨hs', hout⟩ := h
          subst hout
          refine ⟨rfl, by omega, ?_⟩
          rw [← hs']
          simp only
          omega
      | ok r =>
        rw [hdet] at h
        cases r with
        | none => simp only at h; simp at h
        | some region =>
          simp only at h
          split at h
          · simp at h
          · rename_i hc
            obtain ⟨h1, h2, h3⟩ := classifyPhase_out m env region _ s' out h
            simp only at h2 h3
            exact ⟨h1, by omega, by omega⟩
    · -- cached-region branch
      cases hcache : s.cachedBoardRegion with
      | none => rw [hcache] at h; simp at h
      | some region =>
        rw [hcache] at h
        simp only [if_neg hentry] at h
        obtain ⟨h1, h2, h3⟩ := classifyPhase_out m env region s s' out h
        exact ⟨h1, by omega, by omega⟩

/-- C1: request N never yields an emitted PipelineUpdate once request N+1 has
been submitted. Worker side: any posted message carries the processed
request's id, and a message is posted only if that id exceeds the highest
canceled id, as observed at every cancellation check (in particular at the
final one, whose value is the final state's `canceledRequestId`). Pipeline
side: `handleWorkerMessage` drops any worker message whose id differs from
the latest submitted id; `handleFrame` bumps the latest id, which is
monotone under all events, so every message of a superseded request is
dropped forever after. -/
theorem cancellation_no_stale_update :
    (∀ (m : ProcessMessage) (env : WorkerEnv) (s s' : WorkerState) (out : WorkerOutput),
        handleProcess m env s = (s', some out) →
          out.requestId = m.requestId ∧ s.canceledRequestId < m.requestId ∧
            s'.canceledRequestId < m.requestId) ∧
      (∀ (p : PipelineState) (msg : WorkerOutput) (now : ℚ),
          msg.requestId ≠ p.latestRequestId → handleWorkerMessage p msg now = (p, none)) ∧
      (∀ (p : PipelineState) (now : ℚ), p.running = true →
          (handleFrame p now).1.latestRequestId = p.latestRequestId + 1 ∧
            (handleFrame p now).2 = cancelLatest p ++ [WorkerBound.process
              { requestId := p.latestRequestId + 1, now := now,
                boardRefreshMs := p.options.boardRefreshMs,
                confidenceThreshold := p.options.lowConfidenceThreshold,
                forceFlip := p.forceFlip }]) ∧
      (∀ (p : PipelineState) (now now2 : ℚ) (evs : List PipelineEvent) (msg : WorkerOutput),
          p.running = true → msg.requestId ≤ p.latestRequestId →
          (handleWorkerMessage (runPipeline ((handleFrame p now).1) evs) msg now2).2 = none) := by
  have hdrop : ∀ (p : PipelineState) (msg : WorkerOutput) (now : ℚ),
      msg.requestId ≠ p.latestRequestId → handleWorkerMessage p msg now = (p, none) := by
    intro p msg now hne
    unfold handleWorkerMessage
    split
    · rfl
    · rfl
  have hframe : ∀ (p : PipelineState) (now : ℚ), p.running = true →
      (handleFrame p now).1.latestRequestId = p.latestRequestId + 1 ∧
        (handleFrame p now).2 = cancelLatest p ++ [WorkerBound.process
          { requestId := p.latestRequestId + 1, now := now,
            boardRefreshMs := p.options.boardRefreshMs,
            confidenceThreshold := p.options.lowConfidenceThreshold,
            forceFlip := p.forceFlip }] := by
    intro p now hrun
    unfold handleFrame
    rw [if_neg (by simp [hrun])]
    exact ⟨rfl, rfl⟩
  refine ⟨handleProcess_out, hdrop, hframe, ?_⟩
  intro p now now2 evs msg hrun hle
  have h1 : (handleFrame p now).1.latestRequestId = p.latestRequestId + 1 :=
    (hframe p now hrun).1
  have h2 := runPipeline_latest_mono evs (handleFrame p now).1
  have hne : msg.requestId ≠ (runPipeline ((handleFrame p now).1) evs).latestRequestId := by
    omega
  rw [hdrop _ msg now2 hne]

/-- Witness for C1: a pipeline at latest id 1 submits id 2; a worker result
for id 1 delivered afterwards is dropped. -/
theorem cancellation_no_stale_update_witness :
    (handleWorkerMessage
        (runPipeline ((handleFrame
          { options := DEFAULT_PIPELINE_OPTIONS, running := true, latestRequestId := 1,
            lastDeliveredAt := 0, forceFlip := false, changeDetector := ⟨none⟩ } 0).1) [])
        (WorkerOutput.result 1 [] ⟨0, 0, 0, 0⟩ 0 0 false) 7).2 = none :=
  cancellation_no_stale_update.2.2.2
    { options := DEFAULT_PIPELINE_OPTIONS, running := true, latestRequestId := 1,
      lastDeliveredAt := 0, forceFlip := false, changeDetector := ⟨none⟩ }
    0 7 [] (WorkerOutput.result 1 [] ⟨0, 0, 0, 0⟩ 0 0 false) rfl (le_refl 1)

/-- C3: confidence-based temporal smoothing. The default threshold is 0.58,
and whenever a previous snapshot exists and `classifyDetailed` succeeds, an
emitted result's FEN is built from the array that carries the previous
snapshot's label at every square whose confidence is below the message's
threshold, the same array is stored as the new snapshot, and
`lowConfidenceSquares` counts exactly the below-threshold squares. -/
theorem worker_confidence_smoothing :
    DEFAULT_PIPELINE_OPTIONS.lowConfidenceThreshold = 58/100 ∧
      ∀ (m : ProcessMessage) (env : WorkerEnv) (region : BoardRegion) (s1 s' : WorkerState)
        (cls : Classification) (prev : Fin 64 → Char) (out : WorkerOutput),
        env.classifyResult = .ok cls →
        s1.previousPieces = some prev →
        classifyPhase m env region s1 = (s', some out) →
        out = WorkerOutput.result m.requestId
            (piecesToFen (List.ofFn fun i =>
              if cls.confidences i < m.confidenceThreshold then prev i else cls.pieces i))
            region cls.averageConfidence
            ((Finset.univ.filter fun i : Fin 64 =>
              cls.confidences i < m.confidenceThreshold).card)
            cls.wasFlipped ∧
          s'.previousPieces = some (fun i =>
            if cls.confidences i < m.confidenceThreshold then prev i else cls.pieces i) ∧
          ∀ i : Fin 64, cls.confidences i < m.confidenceThreshold →
            (fun i => if cls.confidences i < m.confidenceThreshold then prev i
              else cls.pieces i) i = prev i := by
  refine ⟨rfl, ?_⟩
  intro m env region s1 s' cls prev out hok hprev h
  unfold classifyPhase at h
  rw [hok] at h
  simp only at h
  split at h
  · simp at h
  · simp only [Prod.mk.injEq, Option.some.injEq] at h
    obtain ⟨hs', hout⟩ := h
    subst hout
    rw [hprev] at hs'
    rw [hprev]
    refine ⟨by simp only [smoothPieces], ?_, fun i hi => by simp [hi]⟩
    rw [← hs']
    simp only [smoothPieces]

/-- Concrete classification for the C3 witness: square 12 is classified 'Q'
with confidence 0.3, all other squares with confidence 1. -/
def smokeCls : Classification :=
  { pieces := fun _ => 'Q', confidences := fun i => if i.val = 12 then 3/10 else 1,
    averageConfidence := 9/10, wasFlipped := false }

/-- Process message for the C3 witness, carrying the default threshold. -/
def smokeMsg : ProcessMessage :=
  { requestId := 1, now := 0, boardRefreshMs := 1000,
    confidenceThreshold := DEFAULT_PIPELINE_OPTIONS.lowConfidenceThreshold, forceFlip := false }

/-- Worker environment for the C3 witness. -/
def smokeEnv : WorkerEnv :=
  { detectResult := .ok (some ⟨0, 0, 8, 8⟩), classifyResult := .ok smokeCls,
    cancelDuringDetect := 0, cancelDuringClassify := 0 }

/-- Board region for the C3 witness. -/
def smokeRegion : BoardRegion := ⟨0, 0, 8, 8⟩

/-- Worker state for the C3 witness: previous snapshot all 'k'. -/
def smokeState : WorkerState :=
  { cachedBoardRegion := some smokeRegion, lastBoardDetectionAt := 0, canceledRequestId := 0,
    previousPieces := some fun _ => 'k' }

/-- Witness for C3: with previous snapshot all 'k' and confidence 0.3 < 0.58
at square 12, the smoothed array keeps the previous label 'k' there. -/
theorem worker_confidence_smoothing_witness :
    (fun i : Fin 64 =>
      if smokeCls.confidences i < smokeMsg.confidenceThreshold
      then (fun _ : Fin 64 => 'k') i else smokeCls.pieces i) ⟨12, by omega⟩ = 'k' :=
  (worker_confidence_smoothing.2 smokeMsg smokeEnv smokeRegion smokeState
      (classifyPhase smokeMsg smokeEnv smokeRegion smokeState).1 smokeCls (fun _ => 'k')
      (WorkerOutput.result smokeMsg.requestId
        (piecesToFen (List.ofFn
          (smoothPieces smokeState.previousPieces smokeCls smokeMsg.confidenceThreshold).1))
        smokeRegion smokeCls.averageConfidence
        (smoothPieces smokeState.previousPieces smokeCls smokeMsg.confidenceThreshold).2
        smokeCls.wasFlipped)
      rfl rfl rfl).2.2 ⟨12, by omega⟩
    (by norm_num [smokeCls, smokeMsg, DEFAULT_PIPELINE_OPTIONS])

theorem classifyPhase_cached (m : ProcessMessage) (env : WorkerEnv) (region : BoardRegion)
    (s1 s' : WorkerState) (o : Option WorkerOutput)
    (h : classifyPhase m env region s1 = (s', o)) :
    s'.cachedBoardRegion = s1.cachedBoardRegion := by
  unfold classifyPhase at h
  cases henv : env.classifyResult with
  | error e =>
    rw [henv] at h
    simp only [Prod.mk.injEq] at h
    rw [← h.1]
  | ok cls =>
    rw [henv] at h
    simp only at h
    split at h
    · simp only [Prod.mk.injEq] at h
      rw [← h.1]
    · simp only [Prod.mk.injEq] at h
      rw [← h.1]

theorem classifyPhase_prev (m : ProcessMessage) (env : WorkerEnv) (region : BoardRegion)
    (s1 s' : WorkerState) (h : classifyPhase m env region s1 = (s', none)) :
    s'.previousPieces = s1.previousPieces := by
  unfold classifyPhase at h
  cases henv : env.classifyResult with
  | error e =>
    rw [henv] at h
    simp only [Prod.mk.injEq] at h
    rw [← h.1]
  | ok cls =>
    rw [henv] at h
    simp only at h
    split at h
    · simp only [Prod.mk.injEq] at h
      rw [← h.1]
    · simp only [Prod.mk.injEq] at h
      exact absurd h.2 (by simp)

theorem classifyPhase_error (m : ProcessMessage) (env : WorkerEnv) (region : BoardRegion)
    (s1 s' : WorkerState) (rid : ℕ) (e : List Char)
    (h : classifyPhase m env region s1 = (s', some (.error rid e))) :
    rid = m.requestId ∧ env.classifyResult = .error e ∧
      s'.previousPieces = s1.previousPieces := by
  unfold classifyPhase at h
  cases henv : env.classifyResult with
  | error e2 =>
    rw [henv] at h
    simp only at h
    split at h
    · simp at h
    · simp only [Prod.mk.injEq, Option.some.injEq, WorkerOutput.error.injEq] at h
      obtain ⟨hs', hrid, he⟩ := h
      exact ⟨hrid.symm, by rw [he], by rw [← hs']⟩
  | ok cls =>
    rw [henv] at h
    simp only at h
    split at h
    · simp at h
    · simp only [Prod.mk.injEq, Option.some.injEq] at h
      exact absurd h.2 (by simp)

/-- Inputs for the C6 counterexample: request 1 starts with an empty cache,
detection succeeds, and the cancel for request 1 (sent when request 2 was
submitted) is delivered while the detection await is pending. -/
def staleMsg : ProcessMessage :=
  { requestId := 1, now := 5, boardRefreshMs := 1000, confidenceThreshold := 58/100,
    forceFlip := false }

/-- Environment for the C6 counterexample. -/
def staleEnv : WorkerEnv :=
  { detectResult := .ok (some ⟨1, 2, 3, 4⟩), classifyResult := .error ['x'],
    cancelDuringDetect := 1, cancelDuringClassify := 0 }

/-- Worker state for the C6 counterexample. -/
def staleState : WorkerState :=
  { cachedBoardRegion := none, lastBoardDetectionAt := 0, canceledRequestId := 0,
    previousPieces := none }

/-- Counterexample to C6 as stated: the worker suppresses request 1's result
(no message posted) because its cancel arrived during the detection await,
yet `cachedBoardRegion` and `lastBoardDetectionAt` were already overwritten —
the cache assignment on lines 92-94 runs before the cancellation check on
line 97. -/
theorem canceled_request_mutates_cache :
    (handleProcess staleMsg staleEnv staleState).2 = none ∧
      (handleProcess staleMsg staleEnv staleState).1.cachedBoardRegion ≠
        staleState.cachedBoardRegion ∧
      (handleProcess staleMsg staleEnv staleState).1.lastBoardDetectionAt ≠
        staleState.lastBoardDetectionAt :=
  ⟨by decide, by decide, by decide⟩

/-- C6 amended: a request canceled before entry leaves the worker state
unchanged and emits nothing; a suppressed request never mutates
`previousPieces`; and `cachedBoardRegion` is only ever left unchanged or set
to the request's own detection result — but, per the counterexample, a
request whose cancellation arrives during the detection await does update
`cachedBoardRegion` and `lastBoardDetectionAt` before being suppressed. -/
theorem suppressed_request_state (m : ProcessMessage) (env : WorkerEnv)
    (s s' : WorkerState) (o : Option WorkerOutput) (h : handleProcess m env s = (s', o)) :
    (m.requestId ≤ s.canceledRequestId → s' = s ∧ o = none) ∧
      (o = none → s'.previousPieces = s.previousPieces) ∧
      (s'.cachedBoardRegion = s.cachedBoardRegion ∨
        env.detectResult = .ok s'.cachedBoardRegion) := by
  unfold handleProcess at h
  split at h
  · rename_i hentry
    simp only [Prod.mk.injEq] at h
    obtain ⟨hs', ho⟩ := h
    exact ⟨fun _ => ⟨hs'.symm, ho.symm⟩, fun _ => by rw [← hs'], Or.inl (by rw [← hs'])⟩
  · rename_i hentry
    split at h
    · -- re-detection branch
      cases hdet : env.detectResult with
      | error e =>
        rw [hdet] at h
        simp only at h
        split at h
        · simp only [Prod.mk.injEq] at h
          obtain ⟨hs', ho⟩ := h
          exact ⟨fun hc => absurd hc hentry, fun _ => by rw [← hs'], Or.inl (by rw [← hs'])⟩
        · simp only [Prod.mk.injEq] at h
          obtain ⟨hs', ho⟩ := h
          exact ⟨fun hc => absurd hc hentry, fun _ => by rw [← hs'], Or.inl (by rw [← hs'])⟩
      | ok r =>
        rw [hdet] at h
        cases r with
        | none =>
          simp only [Prod.mk.injEq] at h
          obtain ⟨hs', ho⟩ := h
          refine ⟨fun hc => absurd hc hentry, fun _ => by rw [← hs'], Or.inr ?_⟩
          rw [← hs']
        | some region =>
          simp only at h
          split at h
          · simp only [Prod.mk.injEq] at h
            obtain ⟨hs', ho⟩ := h
            refine ⟨fun hc => absurd hc hentry, fun _ => by rw [← hs'], Or.inr ?_⟩
            rw [← hs']
          · refine ⟨fun hc => absurd hc hentry, ?_, Or.inr ?_⟩
            · intro ho
              subst ho
              rw [classifyPhase_prev m env region _ s' h]
            · rw [classifyPhase_cached m env region _ s' o h]
    · -- cached-region branch
      cases hcache : s.cachedBoardRegion with
      | none =>
        rw [hcache] at h
        simp only [Prod.mk.injEq] at h
        obtain ⟨hs', ho⟩ := h
        exact ⟨fun hc => absurd hc hentry, fun _ => by rw [← hs'],
          Or.inl (by rw [← hs', hcache])⟩
      | some region =>
        rw [hcache] at h
        simp only [if_neg hentry] at h
        refine ⟨fun hc => absurd hc hentry, ?_, Or.inl ?_⟩
        · intro ho
          subst ho
          rw [classifyPhase_prev m env region s s' h]
        · rw [classifyPhase_cached m env region s s' o h, hcache]

/-- Witness for the amended C6: a request whose id is at most the already
canceled id returns immediately with the state unchanged. -/
theorem suppressed_request_state_witness :
    (handleProcess staleMsg staleEnv
        { cachedBoardRegion := none, lastBoardDetectionAt := 0, canceledRequestId := 5,
          previousPieces := none }).1 =
      { cachedBoardRegion := none, lastBoardDetectionAt := 0, canceledRequestId := 5,
        previousPieces := none } ∧
      (handleProcess staleMsg staleEnv
        { cachedBoardRegion := none, lastBoardDetectionAt := 0, canceledRequestId := 5,
          previousPieces := none }).2 = none :=
  (suppressed_request_state staleMsg staleEnv
    { cachedBoardRegion := none, lastBoardDetectionAt := 0, canceledRequestId := 5,
      previousPieces := none } _ _ rfl).1 (by decide)

/-- C7: a rejected detection or classification promise is caught at the
`handleProcess` boundary. Any posted `ErrorResult` carries the failing
request's id and the thrown message (and one is posted unless the request
was canceled — see the cancellation theorem for the posting condition); the
failed request never touches `previousPieces`, and the cached region is
either untouched or the request's own successfully detected value; and from
any resulting state, a subsequent request with healthy detector and
classifier again emits a result, so the pipeline keeps processing. -/
theorem worker_error_handling :
    (∀ (m : ProcessMessage) (env : WorkerEnv) (s s' : WorkerState) (rid : ℕ) (e : List Char),
        handleProcess m env s = (s', some (.error rid e)) →
          rid = m.requestId ∧
            (env.detectResult = .error e ∨ env.classifyResult = .error e) ∧
            s'.previousPieces = s.previousPieces ∧
            (s'.cachedBoardRegion = s.cachedBoardRegion ∨
              env.detectResult = .ok s'.cachedBoardRegion)) ∧
      (∀ (m : ProcessMessage) (env : WorkerEnv) (s : WorkerState) (region : BoardRegion)
          (cls : Classification),
          s.canceledRequestId < m.requestId →
          env.cancelDuringDetect = 0 → env.cancelDuringClassify = 0 →
          env.detectResult = .ok (some region) → env.classifyResult = .ok cls →
          ∃ s' fen reg low,
            handleProcess m env s = (s', some (.result m.requestId fen reg
              cls.averageConfidence low cls.wasFlipped))) := by
  constructor
  · intro m env s s' rid e h
    unfold handleProcess at h
    split at h
    · simp at h
    · rename_i hentry
      split at h
      · -- re-detection branch
        cases hdet : env.detectResult with
        | error e2 =>
          rw [hdet] at h
          simp only at h
          split at h
          · simp at h
          · simp only [Prod.mk.injEq, Option.some.injEq, WorkerOutput.error.injEq] at h
            obtain ⟨hs', hrid, he⟩ := h
            refine ⟨hrid.symm, Or.inl (by rw [he]), by rw [← hs'], Or.inl (by rw [← hs'])⟩
        | ok r =>
          rw [hdet] at h
          cases r with
          | none => simp at h
          | some region =>
            simp only at h
            split at h
            · simp at h
            · obtain ⟨hrid, hcls, hprev⟩ := classifyPhase_error m env region _ s' rid e h
              refine ⟨hrid, Or.inr hcls, by rw [hprev], Or.inr ?_⟩
              rw [classifyPhase_cached m env region _ s' _ h]
      · -- cached-region branch
        cases hcache : s.cachedBoardRegion with
        | none => rw [hcache] at h; simp at h
        | some region =>
          rw [hcache] at h
          simp only [if_neg hentry] at h
          obtain ⟨hrid, hcls, hprev⟩ := classifyPhase_error m env region s s' rid e h
          exact ⟨hrid, Or.inr hcls, hprev,
            Or.inl (by rw [classifyPhase_cached m env region s s' _ h, hcache])⟩
  · intro m env s region cls hlt hd0 hc0 hdet hok
    have hentry : ¬ m.requestId ≤ s.canceledRequestId := by omega
    have hcl : ∀ s1 : WorkerState, s1.canceledRequestId = s.canceledRequestId →
        classifyPhase m env region s1 =
          ({ s1 with previousPieces := some (smoothPieces s1.previousPieces cls m.confidenceThreshold).1 },
            some (.result m.requestId
              (piecesToFen (List.ofFn
                (smoothPieces s1.previousPieces cls m.confidenceThreshold).1))
              region cls.averageConfidence
              (smoothPieces s1.previousPieces cls m.confidenceThreshold).2
              cls.wasFlipped)) := by
      intro s1 hs1
      unfold classifyPhase
      rw [hok, hc0]
      simp only [Nat.max_zero]
      rw [if_neg (by omega), if_neg (by omega)]
    by_cases hneed : s.cachedBoardRegion = none ∨ m.boardRefreshMs ≤ m.now - s.lastBoardDetectionAt
    · have heq : handleProcess m env s = classifyPhase m env region
          { s with cachedBoardRegion := some region, lastBoardDetectionAt := m.now,
                   canceledRequestId := s.canceledRequestId } := by
        unfold handleProcess
        rw [if_neg hentry, if_pos hneed, hdet]
        simp only [hd0, Nat.max_zero]
        rw [if_neg hentry]
      rw [hcl { s with cachedBoardRegion := some region, lastBoardDetectionAt := m.now,
                       canceledRequestId := s.canceledRequestId } rfl] at heq
      exact ⟨_, _, _, _, heq⟩
    · push_neg at hneed
      obtain ⟨r0, hr0⟩ : ∃ r0, s.cachedBoardRegion = some r0 := by
        cases hc : s.cachedBoardRegion with
        | none => exact absurd hc hneed.1
        | some r0 => exact ⟨r0, rfl⟩
      have hcl0 : classifyPhase m env r0 s =
          ({ s with previousPieces := some (smoothPieces s.previousPieces cls m.confidenceThreshold).1 },
            some (.result m.requestId
              (piecesToFen (List.ofFn
                (smoothPieces s.previousPieces cls m.confidenceThreshold).1))
              r0 cls.averageConfidence
              (smoothPieces s.previousPieces cls m.confidenceThreshold).2
              cls.wasFlipped)) := by
        unfold classifyPhase
        rw [hok, hc0]
        simp only [Nat.max_zero]
        rw [if_neg (by omega), if_neg (by omega)]
      have heq : handleProcess m env s = classifyPhase m env r0 s := by
        unfold handleProcess
        rw [if_neg hentry, if_neg (by push_neg; exact ⟨by simp [hr0], hneed.2⟩), hr0]
        simp only [if_neg hentry]
      rw [hcl0] at heq
      exact ⟨_, _, _, _, heq⟩

/-- Inputs for the C7 witness: request 3 whose detection promise rejects. -/
def errMsg : ProcessMessage :=
  { requestId := 3, now := 0, boardRefreshMs := 1000, confidenceThreshold := 58/100,
    forceFlip := false }

/-- Environment for the C7 witness. -/
def errEnv : WorkerEnv :=
  { detectResult := .error ['b', 'a', 'd'], classifyResult := .error ['b', 'a', 'd'],
    cancelDuringDetect := 0, cancelDuringClassify := 0 }

/-- Worker state for the C7 witness. -/
def errState : WorkerState :=
  { cachedBoardRegion := none, lastBoardDetectionAt := 0, canceledRequestId := 0,
    previousPieces := none }

/-- Witness for C7: the rejected detection of request 3 is reported with id 3
and the thrown message, leaving snapshot state untouched. -/
theorem worker_error_handling_witness :
    (3 : ℕ) = errMsg.requestId ∧
      (errEnv.detectResult = .error ['b', 'a', 'd'] ∨
        errEnv.classifyResult = .error ['b', 'a', 'd']) ∧
      (handleProcess errMsg errEnv errState).1.previousPieces = errState.previousPieces ∧
      ((handleProcess errMsg errEnv errState).1.cachedBoardRegion =
          errState.cachedBoardRegion ∨
        errEnv.detectResult = .ok (handleProcess errMsg errEnv errState).1.cachedBoardRegion) :=
  worker_error_handling.1 errMsg errEnv errState (handleProcess errMsg errEnv errState).1 3
    ['b', 'a', 'd'] rfl

/-! ### src/vision/board-detector.ts

Numbers are exact rationals; `Math.floor` is `Int.floor`, `Math.round q` is
`⌊q + 1/2⌋` (JS rounds half-way cases toward +∞). Pixel arrays are modelled
as total functions on indices; every function that the code only defines on
the `sw × sh` grid returns its zero value outside the grid, matching the
zero-initialized typed arrays the code writes into. -/

/-- `Math.round`. -/
def jsRound (q : ℚ) : ℤ := ⌊q + 1/2⌋

/-- An `ImageData`: RGBA bytes in a flat row-major array. -/
structure ImageData where
  width : ℕ
  height : ℕ
  data : ℕ → ℕ

/-- `BoardDetectorOptions`. -/
structure BoardDetectorOptions where
  minCoverage : ℚ
  maxInputDimension : ℚ
  edgePercentile : ℚ
  occlusionPaddingRatio : ℚ

/-- `DEFAULT_OPTIONS` of the board detector. -/
def DEFAULT_DETECTOR_OPTIONS : BoardDetectorOptions :=
  { minCoverage := 6/100, maxInputDimension := 360, edgePercentile := 88/100,
    occlusionPaddingRatio := 7/100 }

/-- `downsampleLuminance`: nearest-pixel-center sampling with Rec. 709
luminance weights, rounded to an integer. -/
def downsampleLuminance (img : ImageData) (sw sh : ℕ) (x y : ℕ) : ℤ :=
  let xRatio : ℚ := (img.width : ℚ) / sw
  let yRatio : ℚ := (img.height : ℚ) / sh
  let sy := min (img.height - 1) (Int.toNat ⌊((y : ℚ) + 1/2) * yRatio⌋)
  let sx := min (img.width - 1) (Int.toNat ⌊((x : ℚ) + 1/2) * xRatio⌋)
  let idx := (sy * img.width + sx) * 4
  jsRound ((2126/10000) * img.data idx + (7152/10000) * img.data (idx + 1)
    + (722/10000) * img.data (idx + 2))

/-- `computeEdgeStrength`: sum of absolute horizontal and vertical deltas;
the last row and column (and everything outside the grid) stay 0, as in the
zero-initialized output array. -/
def computeEdgeStrength (luma : ℕ → ℕ → ℤ) (width height : ℕ) (x y : ℕ) : ℤ :=
  if x + 1 < width ∧ y + 1 < height then
    |luma x y - luma (x + 1) y| + |luma x y - luma x (y + 1)|
  else 0

/-- The flat edge array `edges` (row-major, length `width * height`). -/
def edgesList (edges : ℕ → ℕ → ℤ) (width height : ℕ) : List ℤ :=
  (List.range (width * height)).map fun i => edges (i % width) (i / width)

/-- `percentileThreshold`: index into the ascending sort of the edge
values. -/
def percentileThreshold (edges : List ℤ) (percentile : ℚ) : ℤ :=
  let sorted := edges.mergeSort fun a b => decide (a ≤ b)
  let index := max 0 (min (sorted.length - 1) (Int.toNat ⌊(sorted.length : ℚ) * percentile⌋))
  sorted.getD index 0

/-- `binarize`: `edges[i] >= threshold`. -/
def binarize (edges : ℕ → ℕ → ℤ) (threshold : ℤ) (x y : ℕ) : Bool :=
  threshold ≤ edges x y

/-- Dilation with the 4-neighbour cross kernel, in gather form: a grid cell
is set iff it or one of its in-grid 4-neighbours is set in the input mask
(the scatter loop of the code sets exactly these cells). -/
def dilate (mask : ℕ → ℕ → Bool) (width height : ℕ) (x y : ℕ) : Bool :=
  if x < width ∧ y < height then
    mask x y
      || (decide (0 < x) && mask (x - 1) y)
      || (decide (x + 1 < width) && mask (x + 1) y)
      || (decide (0 < y) && mask x (y - 1))
      || (decide (y + 1 < height) && mask x (y + 1))
  else false

/-- Erosion with the same kernel: a cell survives only if it and all four
neighbours are set, out-of-bounds neighbours counting as 0. -/
def erode (dilated : ℕ → ℕ → Bool) (width height : ℕ) (x y : ℕ) : Bool :=
  if x < width ∧ y < height then
    dilated x y
      && (if 0 < x then dilated (x - 1) y else false)
      && (if x + 1 < width then dilated (x + 1) y else false)
      && (if 0 < y then dilated x (y - 1) else false)
      && (if y + 1 < height then dilated x (y + 1) else false)
  else false

/-- `closeMask`: dilate then erode. -/
def closeMask (mask : ℕ → ℕ → Bool) (width height : ℕ) : ℕ → ℕ → Bool :=
  erode (dilate mask width height) width height

/-- State of one flood fill: the global `visited` byte array (modelled as a
bitset: bit `i` is set iff `visited[i] === 1`), the BFS queue, and the
component statistics. -/
structure FloodState where
  visited : ℕ
  queue : List (ℕ × ℕ)
  minX : ℕ
  maxX : ℕ
  minY : ℕ
  maxY : ℕ
  pixels : ℕ

/-- Enqueue one neighbour if it is in bounds, masked, and unvisited, marking
it visited at enqueue time as the code does. -/
def pushNeighbor (mask : ℕ → ℕ → Bool) (width : ℕ) (st : FloodState)
    (inb : Bool) (nx ny : ℕ) : FloodState :=
  if inb && mask nx ny && !(st.visited.testBit (ny * width + nx)) then
    { st with visited := st.visited ||| 1 <<< (ny * width + nx),
              queue := st.queue ++ [(nx, ny)] }
  else st

/-- The four neighbour pushes of one BFS step, in the code's order. -/
def pushNeighbors (mask : ℕ → ℕ → Bool) (width height : ℕ) (st : FloodState)
    (x y : ℕ) : FloodState :=
  let st1 := pushNeighbor mask width st (decide (0 < x ∧ y < height)) (x - 1) y
  let st2 := pushNeighbor mask width st1 (decide (x + 1 < width ∧ y < height)) (x + 1) y
  let st3 := pushNeighbor mask width st2 (decide (x < width ∧ 0 < y)) x (y - 1)
  pushNeighbor mask width st3 (decide (x < width ∧ y + 1 < height)) x (y + 1)

/-- The BFS loop (`while qStart < qEnd`): pop a cell, fold it into the
bounding box and pixel count, push its unvisited masked neighbours. Each
cell is enqueued at most once, so `width * height` fuel always suffices. -/
def floodLoop (mask : ℕ → ℕ → Bool) (width height : ℕ) : ℕ → FloodState → FloodState
  | 0, st => st
  | fuel + 1, st =>
    match st.queue with
    | [] => st
    | (x, y) :: rest =>
      let st1 : FloodState :=
        { st with queue := rest, pixels := st.pixels + 1,
                  minX := min st.minX x, maxX := max st.maxX x,
                  minY := min st.minY y, maxY := max st.maxY y }
      floodLoop mask width height fuel (pushNeighbors mask width height st1 x y)

/-- A candidate component: bounding box, coverage, and score. -/
structure BestComponent where
  x : ℕ
  y : ℕ
  width : ℕ
  height : ℕ
  coverage : ℚ
  score : ℚ
  deriving DecidableEq

/-- One iteration of the scan over start cells: skip non-mask or visited
cells, otherwise flood the component and keep it iff it beats the current
best score strictly (row-major first-found wins ties). -/
def scanStep (mask : ℕ → ℕ → Bool) (width height : ℕ)
    (acc : ℕ × Option BestComponent) (startIdx : ℕ) :
    ℕ × Option BestComponent :=
  let startX := startIdx % width
  let startY := startIdx / width
  if mask startX startY = false ∨ acc.1.testBit startIdx = true then acc
  else
    let init : FloodState :=
      { visited := acc.1 ||| 1 <<< startIdx,
        queue := [(startX, startY)],
        minX := startX, maxX := startX, minY := startY, maxY := startY, pixels := 0 }
    let fin := floodLoop mask width height (width * height) init
    let boxWidth := fin.maxX - fin.minX + 1
    let boxHeight := fin.maxY - fin.minY + 1
    let aspect : ℚ := (boxWidth : ℚ) / boxHeight
    let squareness : ℚ := max 0 (1 - |1 - aspect|)
    let area : ℚ := (boxWidth : ℚ) * boxHeight
    let fill : ℚ := (fin.pixels : ℚ) / area
    let score := area * squareness * fill
    let coverage := area / ((width : ℚ) * height)
    let better := match acc.2 with
      | none => true
      | some best => decide (best.score < score)
    (fin.visited,
      if better then some ⟨fin.minX, fin.minY, boxWidth, boxHeight, coverage, score⟩ else acc.2)

/-- `findBestSquareComponent`: row-major scan with flood fill, then
normalization of the best bounding box into a square of side
`round((w + h) / 2)` centred on the box centre, clipped at 0 and the grid
dimensions. -/
def findBestSquareComponent (mask : ℕ → ℕ → Bool) (width height : ℕ) :
    Option BestComponent :=
  match ((List.range (width * height)).foldl (scanStep mask width height)
      ((0 : ℕ), none)).2 with
  | none => none
  | some best =>
    let side := jsRound (((best.width : ℚ) + best.height) / 2)
    let centerX : ℚ := (best.x : ℚ) + (best.width : ℚ) / 2
    let centerY : ℚ := (best.y : ℚ) + (best.height : ℚ) / 2
    some { x := Int.toNat (max 0 (jsRound (centerX - (side : ℚ) / 2))),
           y := Int.toNat (max 0 (jsRound (centerY - (side : ℚ) / 2))),
           width := min width (Int.toNat side),
           height := min height (Int.toNat side),
           coverage := best.coverage,
           score := best.score }

/-- Result of `expandForCornerOcclusion`. -/
structure AdjustedRegion where
  x : ℚ
  y : ℚ
  width : ℚ
  height : ℚ
  coverage : ℚ

/-- `expandForCornerOcclusion`: pad the candidate square by the occlusion
ratio, clamp the padded side to the grid, recentre, clip to the grid, and
recompute coverage over the downsampled area. -/
def expandForCornerOcclusion (opts : BoardDetectorOptions) (cand : BestComponent)
    (width height : ℕ) : AdjustedRegion :=
  let side := jsRound (max (cand.width : ℚ) (cand.height : ℚ))
  let pad := jsRound ((side : ℚ) * opts.occlusionPaddingRatio)
  let paddedSide : ℚ :=
    min (max (cand.width : ℚ) (cand.height : ℚ) + (pad : ℚ) * 2) (min (width : ℚ) (height : ℚ))
  let centerX : ℚ := (cand.x : ℚ) + (cand.width : ℚ) / 2
  let centerY : ℚ := (cand.y : ℚ) + (cand.height : ℚ) / 2
  let x : ℚ := max 0 (min ((width : ℚ) - paddedSide) ((jsRound (centerX - paddedSide / 2) : ℚ)))
  let y : ℚ := max 0 (min ((height : ℚ) - paddedSide) ((jsRound (centerY - paddedSide / 2) : ℚ)))
  { x := x, y := y, width := paddedSide, height := paddedSide,
    coverage := paddedSide * paddedSide / ((width : ℚ) * height) }

/-- The downsampling scale factor of `detect`. -/
def scaleOf (opts : BoardDetectorOptions) (img : ImageData) : ℚ :=
  min 1 (opts.maxInputDimension / max (img.width : ℚ) (img.height : ℚ))

/-- The downsampled width `sw = max(32, floor(width * scale))`. -/
def swOf (opts : BoardDetectorOptions) (img : ImageData) : ℕ :=
  max 32 (Int.toNat ⌊(img.width : ℚ) * scaleOf opts img⌋)

/-- The downsampled height `sh = max(32, floor(height * scale))`. -/
def shOf (opts : BoardDetectorOptions) (img : ImageData) : ℕ :=
  max 32 (Int.toNat ⌊(img.height : ℚ) * scaleOf opts img⌋)

/-- The edge map of `detect` on the downsampled luminance grid. -/
def edgesOf (opts : BoardDetectorOptions) (img : ImageData) : ℕ → ℕ → ℤ :=
  computeEdgeStrength (downsampleLuminance img (swOf opts img) (shOf opts img))
    (swOf opts img) (shOf opts img)

/-- The edge-percentile threshold of `detect`. -/
def thresholdOf (opts : BoardDetectorOptions) (img : ImageData) : ℤ :=
  percentileThreshold (edgesList (edgesOf opts img) (swOf opts img) (shOf opts img))
    opts.edgePercentile

/-- The closed binary mask of `detect`. -/
def maskOf (opts : BoardDetectorOptions) (img : ImageData) : ℕ → ℕ → Bool :=
  closeMask (binarize (edgesOf opts img) (thresholdOf opts img)) (swOf opts img) (shOf opts img)

/-- `BoardDetector.detect`: reject tiny frames, locate the best square-ish
component in the closed edge mask, pad it for corner occlusion, reject low
coverage, and rescale to original coordinates via integer floor. -/
def BoardDetector.detect (opts : BoardDetectorOptions) (img : ImageData) :
    Option BoardRegion :=
  if img.width < 32 ∨ img.height < 32 then none
  else
    match findBestSquareComponent (maskOf opts img) (swOf opts img) (shOf opts img) with
    | none => none
    | some candidate =>
      let adjusted := expandForCornerOcclusion opts candidate (swOf opts img) (shOf opts img)
      if adjusted.coverage < opts.minCoverage then none
      else some { x := ((⌊adjusted.x / scaleOf opts img⌋ : ℤ) : ℚ),
                  y := ((⌊adjusted.y / scaleOf opts img⌋ : ℤ) : ℚ),
                  width := ((⌊adjusted.width / scaleOf opts img⌋ : ℤ) : ℚ),
                  height := ((⌊adjusted.height / scaleOf opts img⌋ : ℤ) : ℚ) }
